import Mathlib

/-!
Verification of the Shuffler application (a small desktop utility that flashes
a randomized sequence of text items, lets the user pick items and export the
picked ones to plain-text, JSON or XML files).

The development shallowly embeds the program's core:
  * the file-format writers of `data_export/plain.py`, `data_export/json.py`
    and `data_export/xml.py` as pure functions from item lists to file content
    (modelled as lists of characters);
  * standard parsers for the three produced formats (these are not part of the
    repository; they model what the corresponding stock parsers - line
    splitting, a JSON reader, an XML reader collecting child texts - do on the
    writers' output);
  * the `State` container of `main.py` (an association list with Python-`dict`
    get/set semantics, including the `KeyError` raised by the callable branch
    of `State.set`);
  * the `Application` operations of `main.py`: the item flash loop
    (`_start_item_flash_loop`), picking (`_pick_item`,
    `_transfer_item_to_picked_list`), resetting (`_reset`), loading
    (`_load_shuffle_list`) and the export dispatch (`_get_export_proc`,
    `_export_picked`).

Python-specific behaviour is modelled explicitly: negative list indexing,
list truthiness, `str.strip` with an explicit character set, `os.path.splitext`
and exceptions (as `Except` or `Option` results).
-/

namespace Shuffler

/-! ### Character-list strings and generic helpers -/

/-- File content and fine-grained string manipulation are modelled on lists of
characters. -/
abbrev Str := List Char

/-- Join a list of strings with a separator, as Python's `sep.join(items)`:
no leading or trailing separator, nothing for the empty list. -/
def joinWith (sep : Str) : List Str → Str
  | [] => []
  | [x] => x
  | x :: y :: rest => x ++ sep ++ joinWith sep (y :: rest)

/-- Split a string at every occurrence of the character `sep`, as Python's
`content.split(sep)`: the result always has one more part than there are
separators, so the empty string yields one empty part. -/
def splitOnChar (sep : Char) : Str → List Str
  | [] => [[]]
  | c :: rest =>
    let r := splitOnChar sep rest
    if c = sep then [] :: r
    else
      match r with
      | [] => [[c]]
      | y :: ys => (c :: y) :: ys

/-- Remove a literal pattern from the front of a string; `some rest` on
success, `none` when the input does not start with the pattern. -/
def dropPref : Str → Str → Option Str
  | [], s => some s
  | _ :: _, [] => none
  | p :: ps, c :: cs => if p = c then dropPref ps cs else none

/-- Strip all characters satisfying `p` from both ends of a string, as
Python's `str.strip` with an explicit character set. -/
def stripBoth (p : Char → Bool) (s : Str) : Str :=
  ((s.dropWhile p).reverse.dropWhile p).reverse

/-! ### The export writers (`data_export/plain.py`, `json.py`, `xml.py`)

Each writer is modelled as the full content string it writes to the
destination file. -/

/-- Content written by `data_export/plain.py::export`: the items joined by
newlines (`'\n'.join(items)`), no trailing newline, no escaping. -/
def export_plain (items : List Str) : Str :=
  joinWith ['\n'] items

/-- Escaping performed by `json.dumps` on one character of a string value,
modelled for printable-ASCII input: the double quote and the backslash gain a
backslash, everything else is emitted verbatim.  (The real `json.dumps` also
hex-escapes control characters and non-ASCII characters, which the theorems
below exclude by hypothesis.) -/
def jsonEscapeChar (c : Char) : Str :=
  if c = '"' then ['\\', '"']
  else if c = '\\' then ['\\', '\\']
  else [c]

/-- String-value escaping of `json.dumps`, character by character. -/
def jsonEscape (s : Str) : Str :=
  (s.map jsonEscapeChar).flatten

/-- One array entry as rendered by `json.dumps(items, indent=4)`: a four-space
indent and the quoted, escaped string. -/
def jsonItem (s : Str) : Str :=
  (' ' :: ' ' :: ' ' :: ' ' :: '"' :: []) ++ jsonEscape s ++ ['"']

/-- Content written by `data_export/json.py::export`, i.e.
`json.dumps(items, indent=4)`: the empty list prints as a bare pair of
brackets, otherwise every entry sits on its own indented line. -/
def export_json (items : List Str) : Str :=
  if items = [] then '[' :: ']' :: []
  else '[' :: '\n' :: (joinWith (',' :: '\n' :: []) (items.map jsonItem) ++ ('\n' :: ']' :: []))

/-- Text escaping of `xml.etree.ElementTree` serialization: ampersand, less-than
and greater-than become entities, everything else is verbatim (modelled for
printable-ASCII text). -/
def xmlEscapeChar (c : Char) : Str :=
  if c = '&' then '&' :: 'a' :: 'm' :: 'p' :: ';' :: []
  else if c = '<' then '&' :: 'l' :: 't' :: ';' :: []
  else if c = '>' then '&' :: 'g' :: 't' :: ';' :: []
  else [c]

/-- Element-text escaping, character by character. -/
def xmlEscape (s : Str) : Str :=
  (s.map xmlEscapeChar).flatten

/-- The XML declaration emitted by `ElementTree.write(path, encoding='utf-8')`. -/
def xmlDecl : Str :=
  ('<' :: '?' :: 'x' :: 'm' :: 'l' :: ' ' :: 'v' :: 'e' :: 'r' :: 's' :: 'i' :: 'o' :: 'n' ::
   '=' :: '\'' :: '1' :: '.' :: '0' :: '\'' :: ' ' :: 'e' :: 'n' :: 'c' :: 'o' :: 'd' :: 'i' ::
   'n' :: 'g' :: '=' :: '\'' :: 'u' :: 't' :: 'f' :: '-' :: '8' :: '\'' :: '?' :: '>' ::
   '\n' :: [])

/-- One child element as serialized by `ElementTree`: the short form for empty
text, otherwise an open tag, the escaped text and a close tag. -/
def xmlChild (child : Str) (text : Str) : Str :=
  if text = [] then ('<' :: child) ++ (' ' :: '/' :: '>' :: [])
  else ('<' :: child) ++ ('>' :: xmlEscape text) ++ ('<' :: '/' :: child) ++ ('>' :: [])

/-- Content written by `data_export/xml.py::export`: the tree built by
`_xml_list` (one child per item under a single root), prettified by
`ET.indent` (root text a newline plus two spaces, each child's tail a newline
plus two spaces except the last, whose tail is a bare newline) and written with
the UTF-8 declaration.  An empty item list serializes the root in short form. -/
def export_xml (root child : Str) (items : List Str) : Str :=
  xmlDecl ++
    (if items = [] then ('<' :: root) ++ (' ' :: '/' :: '>' :: [])
     else ('<' :: root) ++ ('>' :: []) ++
       (items.map (fun x => ('\n' :: ' ' :: ' ' :: []) ++ xmlChild child x)).flatten ++
       ('\n' :: '<' :: '/' :: root) ++ ('>' :: []))

/-! ### The standard parsers (not repository code)

The repository only writes the three formats; the round-trip claim reads them
back with stock parsers.  These definitions model what the stock parsers do:
plain text splits into lines, the JSON reader parses the pretty-printed array
of strings (undoing the backslash escapes), the XML reader undoes the entity
escapes and collects the child element texts in document order. -/

/-- Reading a plain-text export back: split the content into lines. -/
def parse_plain (content : Str) : List Str :=
  splitOnChar '\n' content

mutual

/-- Parse a JSON string body after the opening quote (mutually with the
escape handler): returns the unescaped content and the remaining input after
the closing quote. -/
def parseJsonStr : Str → Option (Str × Str)
  | [] => none
  | c :: rest =>
    if c = '"' then some ([], rest)
    else if c = '\\' then parseJsonEsc rest
    else (parseJsonStr rest).map (fun p => (c :: p.1, p.2))
termination_by s => s.length

/-- Continue a JSON string body right after a backslash: only an escaped
quote or backslash is accepted (the writer produces no other escapes on
printable-ASCII input). -/
def parseJsonEsc : Str → Option (Str × Str)
  | [] => none
  | c2 :: r2 =>
    if c2 = '"' ∨ c2 = '\\' then (parseJsonStr r2).map (fun p => (c2 :: p.1, p.2))
    else none
termination_by s => s.length

end

/-- Parse the entries of a non-empty pretty-printed JSON array of strings:
each entry is indented by four spaces and quoted; entries are separated by a
comma and a newline, and the array closes with a newline and a bracket.  The
fuel argument bounds the number of entries. -/
def parseJsonItems : Nat → Str → Option (List Str)
  | 0, _ => none
  | fuel + 1, s =>
    (dropPref (' ' :: ' ' :: ' ' :: ' ' :: '"' :: []) s).bind (fun s1 =>
      (parseJsonStr s1).bind (fun p =>
        if p.2 = '\n' :: ']' :: [] then some [p.1]
        else (dropPref (',' :: '\n' :: []) p.2).bind (fun s3 =>
          (parseJsonItems fuel s3).map (fun l => p.1 :: l))))

/-- Reading a JSON export back: an empty array or a bracketed, newline-wrapped
entry list. -/
def parse_json (content : Str) : Option (List Str) :=
  (dropPref ('[' :: '\n' :: []) content).elim
    (if content = '[' :: ']' :: [] then some [] else none)
    (fun rest => parseJsonItems rest.length rest)

mutual

/-- Parse XML element text up to the next markup character, undoing the three
entity escapes; returns the text and the rest of the input (which starts with
the terminating less-than sign). -/
def parseXmlText : Str → Option (Str × Str)
  | [] => none
  | c :: rest =>
    if c = '<' then some ([], c :: rest)
    else if c = '&' then parseXmlEnt rest
    else (parseXmlText rest).map (fun p => (c :: p.1, p.2))
termination_by s => s.length

/-- Continue element text right after an ampersand: one of the three entities
the writer produces, then more text. -/
def parseXmlEnt : Str → Option (Str × Str)
  | 'a' :: 'm' :: 'p' :: ';' :: r => (parseXmlText r).map (fun p => ('&' :: p.1, p.2))
  | 'l' :: 't' :: ';' :: r => (parseXmlText r).map (fun p => ('<' :: p.1, p.2))
  | 'g' :: 't' :: ';' :: r => (parseXmlText r).map (fun p => ('>' :: p.1, p.2))
  | _ => none
termination_by s => s.length

end

/-- Parse the indented children of the root element: either the root's closing
tag (end of the document) or one more indented child followed by the rest.
The fuel argument bounds the number of children. -/
def parseXmlItems (root child : Str) : Nat → Str → Option (List Str)
  | 0, _ => none
  | fuel + 1, s =>
    (dropPref ('\n' :: '<' :: '/' :: (root ++ ('>' :: []))) s).elim
      ((dropPref ('\n' :: ' ' :: ' ' :: '<' :: (child ++ ('>' :: []))) s).bind (fun r1 =>
        (parseXmlText r1).bind (fun p =>
          (dropPref ('<' :: '/' :: (child ++ ('>' :: []))) p.2).bind (fun r3 =>
            (parseXmlItems root child fuel r3).map (fun l => p.1 :: l)))))
      (fun r => if r = [] then some [] else none)

/-- Reading an XML export back: skip the declaration, open the root element and
collect the child texts in document order; a short-form root is the empty
document. -/
def parse_xml (root child : Str) (content : Str) : Option (List Str) :=
  (dropPref xmlDecl content).bind (fun s1 =>
    (dropPref (('<' :: root) ++ ('>' :: [])) s1).elim
      ((dropPref (('<' :: root) ++ (' ' :: '/' :: '>' :: [])) s1).bind (fun r =>
        if r = [] then some [] else none))
      (fun s2 => parseXmlItems root child s2.length s2))

/-- Characters a round-trip theorem may quantify over: printable ASCII.  On
this range the modelled `json.dumps` and `ElementTree` escapes agree with the
real ones (outside it the stock writers produce numeric escapes that the
models do not reproduce). -/
def printableAscii (s : Str) : Prop :=
  ∀ c ∈ s, 32 ≤ c.toNat ∧ c.toNat ≤ 126

instance (s : Str) : Decidable (printableAscii s) := by
  unfold printableAscii; infer_instance

/-! ### The `State` container (`main.py::State`)

`State.items` is a Python `dict`; `get` uses `dict.get` (`None` when absent);
`set` with a callable evaluates `value(self.items[key])` - a direct indexing
that raises `KeyError` when the key is absent - and otherwise assigns
`self.items[key] = value`.  The entries are modelled as an association list in
insertion order; the callable itself is opaque, so a callable `set` records
the argument the callable was invoked with (its return value is discarded by
the Python code, which never assigns it). -/

/-- Look a key up in the entry list, as Python `dict` indexing would. -/
def entriesGet {V : Type} : List (String × V) → String → Option V
  | [], _ => none
  | e :: es, k => if e.1 = k then some e.2 else entriesGet es k

/-- Assign a key in the entry list, as Python `dict` assignment: replace the
entry when the key is present, append a new entry otherwise. -/
def entriesSet {V : Type} : List (String × V) → String → V → List (String × V)
  | [], k, v => [(k, v)]
  | e :: es, k, v => if e.1 = k then (k, v) :: es else e :: entriesSet es k v

/-- The argument of `State.set`: either a plain value or a callable (whose
behaviour is opaque to the state container). -/
inductive SetArg (V : Type) : Type
  | plain (v : V) : SetArg V
  | callable : SetArg V

/-- One `State` container: the keyword-argument dictionary held in
`State.items`. -/
structure PyState (V : Type) : Type where
  items : List (String × V)

/-- The `State.get` method: `self.items.get(key)`, so `none` for a missing
key. -/
def stateGet {V : Type} (st : PyState V) (key : String) : Option V :=
  entriesGet st.items key

/-- The `State.set` method.  A callable argument is invoked on
`self.items[key]` - the model returns the value the callable receives, and a
`KeyError` (`Except.error`) when the key is absent; the dictionary itself is
not modified and the callable's return value is discarded.  A plain argument
is stored under the key. -/
def stateSet {V : Type} (st : PyState V) (key : String) (arg : SetArg V) :
    Except Unit (PyState V × Option V) :=
  match arg with
  | .callable =>
    match entriesGet st.items key with
    | some cur => .ok (st, some cur)
    | none => .error ()
  | .plain v => .ok (⟨entriesSet st.items key v⟩, none)

/-! ### The application state (`main.py::Application`)

The fields of `Application.state` that the claims are about.  `value` is the
string content of the `StrBinding` bound to the display label (tick callbacks
mutate it through the callable branch of `State.set`); `shuffleBtn` is the
text of the Start/Stop button; `running` is `shuffling_in_progress`. -/

structure AppState : Type where
  shuffleList : List String
  picked : List String
  value : String
  running : Bool
  shuffleBtn : String
deriving DecidableEq

/-- Python list indexing `l[i]` for a possibly negative `i`: `none` models the
`IndexError` raised when the index is out of range. -/
def pyGet (l : List String) (i : Int) : Option String :=
  if 0 ≤ i then l.get? i.toNat
  else if (-i).toNat ≤ l.length then l.get? (l.length - (-i).toNat) else none

/-- The cursor advance of `_start_item_flash_loop` when indexing succeeded:
`i += 1 if i < len(shuffle_list) - 1 else -len(shuffle_list)`. -/
def cursorStep (n : Nat) (i : Int) : Int :=
  if i < (n : Int) - 1 then i + 1 else i - (n : Int)

/-- One firing of the `_start_item_flash_loop` callback on state `s` with
cursor `i`: if shuffling is off nothing happens and no tick is rescheduled;
otherwise the item at the cursor is displayed and the cursor advanced, except
that an `IndexError` leaves the display unchanged and resets the cursor to
zero; a next tick is scheduled whenever the running flag is still set (the
returned boolean). -/
def flashTick (s : AppState) (i : Int) : AppState × Int × Bool :=
  if s.running then
    match pyGet s.shuffleList i with
    | some v => ({ s with value := v }, cursorStep s.shuffleList.length i, s.running)
    | none => (s, 0, s.running)
  else (s, i, false)

/-- Iterate the flash loop `t` times from state `s` and cursor `i`, keeping
the state and cursor (the reschedule flag is `true` throughout while the
running flag stays set, since nothing in a pure flashing run clears it). -/
def flashIter (s : AppState) (i : Int) : Nat → AppState × Int
  | 0 => (s, i)
  | t + 1 =>
    let p := flashIter s i t
    let r := flashTick p.1 p.2
    (r.1, r.2.1)

/-- The item displayed by tick number `t` (counting from zero) after the flash
loop is started on state `s`: `start_shuffling` sets the cursor to `0`, and
the display after `t + 1` firings is the value written by firing `t`. -/
def flashDisplay (s : AppState) (t : Nat) : String :=
  (flashIter s 0 (t + 1)).1.value

/-- The pure cursor sequence of an uninterrupted flashing run over a list of
length `n`, starting from `0`. -/
def curSeq (n : Nat) : Nat → Int
  | 0 => 0
  | t + 1 => cursorStep n (curSeq n t)

/-- The property claimed of the flash loop: from the start of the loop, every
window of `n` consecutive displays (where `n` is the working-list length) shows
every element of the working list exactly once - i.e. each element is displayed
exactly once before any element is displayed again. -/
def flashVisitsAllOnce (s : AppState) : Prop :=
  ∀ t : Nat,
    ((List.range s.shuffleList.length).map (fun j => flashDisplay s (t + j))).Perm s.shuffleList

/-- The `_transfer_item_to_picked_list` method: a list comprehension keeps the
working-list entries different from the transferred item (so all equal entries
go), and the item is appended to the picked list.  (The picked-items widget is
notified with the same item; the widget mirror is not modelled.) -/
def transfer_item_to_picked_list (s : AppState) (item : String) : AppState :=
  { s with
    shuffleList := s.shuffleList.filter (fun x => x ≠ item),
    picked := s.picked ++ [item] }

/-- The `_pick_item` handler: guarded by a non-empty working list and the
running flag; stops the loop without touching the button label, transfers the
currently displayed value, and either reports exhaustion (relabelling the
button `Restart`) or resumes the loop. -/
def pick_item (s : AppState) : AppState :=
  if s.shuffleList ≠ [] ∧ s.running then
    let s1 : AppState := { s with running := false }
    let s2 := transfer_item_to_picked_list s1 s1.value
    if s2.shuffleList = [] then
      { s2 with value := "No more items. Reset/Restart.", shuffleBtn := "Restart" }
    else { s2 with running := true }
  else s

/-- One pick as it happens in a run: the ticks between two button presses
have moved the displayed value to `v`, then `_pick_item` fires. -/
def pickWith (s : AppState) (v : String) : AppState :=
  pick_item { s with value := v }

/-- A whole sequence of pick presses with the given displayed values. -/
def applyPicks (s : AppState) (vs : List String) : AppState :=
  vs.foldl pickWith s

/-- The displayed values of a pick sequence are valid when every pick that
actually fires (running flag set, non-empty working list) picks a value that
is on the working list - which is what the flash loop guarantees once it has
displayed at least one item. -/
def validPicks : AppState → List String → Bool
  | _, [] => true
  | s, v :: vs =>
    (if s.running ∧ s.shuffleList ≠ [] then s.shuffleList.contains v else true) &&
      validPicks (pickWith s v) vs

/-- The `_reset` handler: a no-op while nothing is picked; otherwise the
picked items are concatenated back onto the working list, the picked list is
cleared, the loop is stopped and restarted if it was running (leaving the
button saying `Stop`) or the button is relabelled `Start`, and the display
confirms the reset. -/
def reset (s : AppState) : AppState :=
  if s.picked ≠ [] then
    { s with
      shuffleList := s.shuffleList ++ s.picked,
      picked := [],
      shuffleBtn := if s.running then "Stop" else "Start",
      value := "Shuffler reset." }
  else s

/-! ### Loading (`_load_shuffle_list`)

The file dialog and the file read are external; the model takes the file
content (text mode with universal newlines, so every line break is a single
newline character).  `readlines` followed by `strip(' \n')` per line is
modelled as splitting on the newline character and stripping spaces and
newlines from both ends of each piece. -/

/-- Python whitespace, as `str.strip()` with no arguments uses for the
blank-line test `line.strip()`: the full Unicode whitespace table of
`str.isspace` - tab through carriage return (9-13), the information
separators and the space (28-32), next line (0x85), no-break space (0xa0),
the Ogham space mark (0x1680), the en-quad through hair-space range
(0x2000-0x200a), the line and paragraph separators (0x2028, 0x2029), the
narrow no-break space (0x202f), the medium mathematical space (0x205f) and
the ideographic space (0x3000). -/
def pyWhitespace (c : Char) : Bool :=
  (9 ≤ c.toNat ∧ c.toNat ≤ 13) ∨ (28 ≤ c.toNat ∧ c.toNat ≤ 32) ∨
    c.toNat = 0x85 ∨ c.toNat = 0xa0 ∨ c.toNat = 0x1680 ∨
    (0x2000 ≤ c.toNat ∧ c.toNat ≤ 0x200a) ∨ c.toNat = 0x2028 ∨ c.toNat = 0x2029 ∨
    c.toNat = 0x202f ∨ c.toNat = 0x205f ∨ c.toNat = 0x3000

/-- The characters stripped from each line by `line.strip(' \n')`. -/
def spaceOrNewline (c : Char) : Bool :=
  c = ' ' ∨ c = '\n'

/-- First-occurrence de-duplication.  The source uses `list(set(...))`, whose
order is unspecified (a hash order); the model fixes first-occurrence order,
and no theorem below depends on the order of the result. -/
def dedupFirstAux (seen : List String) : List String → List String
  | [] => []
  | x :: xs =>
    if x ∈ seen then dedupFirstAux seen xs
    else x :: dedupFirstAux (x :: seen) xs

/-- De-duplicate keeping first occurrences (modelling `list(set(...))` up to
its unspecified order). -/
def dedupFirst (l : List String) : List String :=
  dedupFirstAux [] l

/-- The lines of the items file after the per-line `strip(' \n')`. -/
def strippedLines (content : String) : List Str :=
  (splitOnChar '\n' content.toList).map (stripBoth spaceOrNewline)

/-- The non-blank stripped lines (`filter(lambda line: line.strip(), lines)`:
a line survives when stripping all whitespace leaves something). -/
def nonBlankLines (content : String) : List String :=
  ((strippedLines content).filter (fun l => !(l.all pyWhitespace))).map (fun l => String.mk l)

/-- The `_load_shuffle_list` handler on given file content: the working list
it installs and the message it displays. -/
def load_shuffle_list (content : String) : List String × String :=
  let items := dedupFirst (nonBlankLines content)
  (items, toString items.length ++ " items loaded. Ready to start.")

/-- Claim-side reading of the load pipeline, following the claim's words
"trims whitespace from each line": identical to `load_shuffle_list` except
that each line is stripped of all whitespace rather than only of spaces and
newlines.  Kept separate so the two can be compared. -/
def load_shuffle_list_spec (content : String) : List String × String :=
  let lines := (splitOnChar '\n' content.toList).map (stripBoth pyWhitespace)
  let nonBlank := (lines.filter (fun l => !(l.all pyWhitespace))).map (fun l => String.mk l)
  let items := dedupFirst nonBlank
  (items, toString items.length ++ " items loaded. Ready to start.")

/-! ### Export dispatch (`_get_export_proc`, `_export_picked`) -/

/-- The three export procedures of `Application.export_formats`. -/
inductive ExportKind : Type
  | txt : ExportKind
  | xml : ExportKind
  | json : ExportKind
deriving DecidableEq

/-- The `export_formats` table built in `Application.__init__`. -/
def export_formats : List (String × ExportKind) :=
  [("TXT", .txt), ("XML", .xml), ("JSON", .json)]

/-- The extension part of `os.path.splitext` on a file name (no separators):
everything from the last dot on, provided some non-dot character precedes that
dot; otherwise empty. -/
def splitextExt (f : Str) : Str :=
  match f.reverse.findIdx? (fun c => c = '.') with
  | none => []
  | some k =>
    let dotIdx := f.length - 1 - k
    if (f.take dotIdx).any (fun c => c ≠ '.') then f.drop dotIdx else []

/-- The extension lookup of `_get_export_proc`: `os.path.split` keeps the part
after the last slash, `os.path.splitext` takes its extension, which is
lowercased (character by character, as `str.lower` does for ASCII) and
stripped of dots. -/
def extOf (path : String) : Str :=
  let file := ((splitOnChar '/' path.toList).getLastD [])
  stripBoth (fun c => c = '.') ((splitextExt file).map Char.toLower)

/-- The `_get_export_proc` method.  The docstring promises `None` for an
unsupported extension, but the body returns `procs[0][1]` unconditionally, so
an empty filter result raises `IndexError` (`Except.error`). -/
def get_export_proc (path : String) : Except Unit ExportKind :=
  match export_formats.filter (fun it => it.1.toList.map Char.toLower = extOf path) with
  | [] => .error ()
  | p :: _ => .ok p.2

/-- The `_export_picked` handler: nothing happens while the picked list is
empty; otherwise the export procedure looked up from the chosen path runs (an
`IndexError` from the lookup propagates out of the handler unhandled).  The
result records which writer ran, if any. -/
def export_picked (picked : List String) (path : String) :
    Except Unit (Option ExportKind) :=
  if picked ≠ [] then (get_export_proc path).map (fun k => some k)
  else .ok none

/-! ## Theorems -/

/-! ### Helper lemmas -/

theorem entriesGet_entriesSet {V : Type} (es : List (String × V)) (k : String) (v : V) :
    entriesGet (entriesSet es k v) k = some v := by
  induction es with
  | nil => simp [entriesGet, entriesSet]
  | cons e es ih =>
    by_cases h : e.1 = k
    · simp [entriesGet, entriesSet, h]
    · simp [entriesGet, entriesSet, h, ih]

theorem pyGet_nil (i : Int) : pyGet [] i = none := by
  simp [pyGet]

theorem pick_item_fired (s : AppState) (hl : s.shuffleList ≠ []) (hr : s.running = true) :
    (pick_item s).shuffleList = s.shuffleList.filter (fun x => x ≠ s.value) ∧
    (pick_item s).picked = s.picked ++ [s.value] := by
  unfold pick_item transfer_item_to_picked_list
  rw [if_pos ⟨hl, hr⟩]
  dsimp only
  by_cases hempty : s.shuffleList.filter (fun x => x ≠ s.value) = []
  · rw [if_pos hempty]
    exact ⟨rfl, rfl⟩
  · rw [if_neg hempty]
    exact ⟨rfl, rfl⟩

theorem pick_item_skipped (s : AppState) (h : ¬(s.shuffleList ≠ [] ∧ s.running)) :
    pick_item s = s := by
  unfold pick_item
  rw [if_neg h]

/-! ### C2: export with an unrecognized extension

`_get_export_proc`'s docstring promises `None` for an unsupported extension
and `_export_picked` tests the result for truthiness, but the body returns
`procs[0][1]` on the filtered table, which raises `IndexError` on an empty
filter result; `_export_picked` does not catch it.  The spec's claim (a silent
no-op) matches the documented intent, so this is a bug in the code. -/

/-- C2: with a non-empty picked list and a `.csv` destination, the export
format lookup raises `IndexError` (the error value), and the export handler
propagates it unhandled - contradicting the claim (and the code's own
docstring) that an unrecognized extension is a silent no-op. -/
theorem export_unrecognized_extension_raises :
    get_export_proc "/path/to/picked-items.csv" = .error () ∧
    export_picked ["Item 1"] "/path/to/picked-items.csv" = .error () := by
  constructor <;> rfl

/-! ### C4: a tick firing on an empty working list -/

/-- C4 (counterexample): a tick firing while the running flag is set and the
working list is empty does not transition the loop to STOPPED: the running
flag stays set and a further tick is scheduled (the claim says the loop stops
and schedules no further tick). -/
theorem flash_tick_empty_counterexample :
    (AppState.mk [] [] "last" true "Stop").shuffleList = [] ∧
    (AppState.mk [] [] "last" true "Stop").running = true ∧
    (flashTick (AppState.mk [] [] "last" true "Stop") 0).1.running = true ∧
    (flashTick (AppState.mk [] [] "last" true "Stop") 0).2.2 = true := by
  refine ⟨rfl, rfl, rfl, rfl⟩

/-- C4 (amended): a tick that fires while RUNNING on an empty working list
raises no error, leaves the whole state - in particular the displayed value
and the running flag - unchanged, resets the cursor to zero, and reschedules
itself; the loop stays RUNNING (it only ever stops through the running flag). -/
theorem flash_tick_empty_list (s : AppState) (i : Int)
    (hr : s.running = true) (hl : s.shuffleList = []) :
    flashTick s i = (s, 0, true) := by
  simp [flashTick, hr, hl, pyGet_nil]

/-- Witness for `flash_tick_empty_list` at a concrete state and cursor. -/
theorem flash_tick_empty_list_witness :
    flashTick (AppState.mk [] ["p"] "v" true "Start") 7 =
      (AppState.mk [] ["p"] "v" true "Start", 0, true) :=
  flash_tick_empty_list (AppState.mk [] ["p"] "v" true "Start") 7 rfl rfl

/-! ### C9: a pick removes every occurrence of the displayed item -/

/-- C9: while the loop is running on a non-empty working list, a pick filters
out every working-list entry equal to the displayed value (all duplicates at
once) and appends that value exactly once to the picked list. -/
theorem pick_removes_all_occurrences (s : AppState)
    (hl : s.shuffleList ≠ []) (hr : s.running = true) :
    (pick_item s).shuffleList = s.shuffleList.filter (fun x => x ≠ s.value) ∧
    (pick_item s).picked = s.picked ++ [s.value] ∧
    (pick_item s).shuffleList.count s.value = 0 ∧
    (pick_item s).picked.count s.value = s.picked.count s.value + 1 := by
  obtain ⟨h1, h2⟩ := pick_item_fired s hl hr
  have hcount : (s.shuffleList.filter (fun x => x ≠ s.value)).count s.value = 0 := by
    rw [List.count_eq_zero]
    intro hmem
    rcases List.mem_filter.mp hmem with ⟨-, hne⟩
    simp at hne
  refine ⟨h1, h2, ?_, ?_⟩
  · rw [h1, hcount]
  · rw [h2, List.count_append]
    simp

/-- Witness for `pick_removes_all_occurrences` on a working list holding the
displayed value twice: both copies go, the picked list gains one entry. -/
theorem pick_removes_all_occurrences_witness :
    (pick_item (AppState.mk ["a", "x", "a"] ["p"] "a" true "Stop")).shuffleList =
      (["a", "x", "a"].filter (fun x => x ≠ "a")) ∧
    (pick_item (AppState.mk ["a", "x", "a"] ["p"] "a" true "Stop")).picked = ["p"] ++ ["a"] ∧
    (pick_item (AppState.mk ["a", "x", "a"] ["p"] "a" true "Stop")).shuffleList.count "a" = 0 ∧
    (pick_item (AppState.mk ["a", "x", "a"] ["p"] "a" true "Stop")).picked.count "a" =
      (["p"] : List String).count "a" + 1 :=
  pick_removes_all_occurrences (AppState.mk ["a", "x", "a"] ["p"] "a" true "Stop")
    (by decide) rfl

/-! ### C6: export round trips -/

theorem dropPref_self (p : Str) (s : Str) : dropPref p (p ++ s) = some s := by
  induction p with
  | nil => rfl
  | cons c cs ih => simp [dropPref, ih]

theorem dropPref_append_left (a : Str) (b : Str) (s : Str) :
    dropPref (a ++ b) (a ++ s) = dropPref b s := by
  induction a with
  | nil => rfl
  | cons c cs ih => simp [dropPref, ih]

theorem splitOnChar_not_mem (sep : Char) (x : Str) (h : sep ∉ x) :
    splitOnChar sep x = [x] := by
  induction x with
  | nil => rfl
  | cons c cs ih =>
    rw [List.mem_cons] at h
    push_neg at h
    rw [splitOnChar]
    simp only [ih h.2]
    rw [if_neg (fun he => h.1 he.symm)]

theorem splitOnChar_append (sep : Char) (x : Str) (t : Str) (h : sep ∉ x) :
    splitOnChar sep (x ++ sep :: t) = x :: splitOnChar sep t := by
  induction x with
  | nil =>
    rw [List.nil_append, splitOnChar]
    simp
  | cons c cs ih =>
    rw [List.mem_cons] at h
    push_neg at h
    rw [List.cons_append, splitOnChar]
    simp only [ih h.2]
    rw [if_neg (fun he => h.1 he.symm)]

theorem parse_plain_round (items : List Str) (hne : items ≠ [])
    (h : ∀ x ∈ items, '\n' ∉ x) :
    parse_plain (export_plain items) = items := by
  induction items with
  | nil => exact absurd rfl hne
  | cons x xs ih =>
    cases xs with
    | nil =>
      rw [export_plain, joinWith, parse_plain]
      exact splitOnChar_not_mem '\n' x (h x (List.mem_cons_self x []))
    | cons y ys =>
      have hx : '\n' ∉ x := h x (List.mem_cons_self x (y :: ys))
      have hrest : ∀ z ∈ y :: ys, '\n' ∉ z := fun z hz => h z (List.mem_cons_of_mem x hz)
      rw [export_plain, joinWith, parse_plain, List.append_assoc, List.singleton_append,
        splitOnChar_append '\n' x _ hx]
      have := ih (by simp) hrest
      rw [parse_plain, export_plain] at this
      rw [this]

theorem parseJsonStr_escape (x : Str) : ∀ r : Str,
    parseJsonStr (jsonEscape x ++ '"' :: r) = some (x, r) := by
  induction x with
  | nil => intro r; simp [jsonEscape, parseJsonStr]
  | cons c cs ih =>
    intro r
    have ih2 : parseJsonStr ((cs.map jsonEscapeChar).flatten ++ '"' :: r) = some (cs, r) := by
      have h := ih r
      rwa [jsonEscape] at h
    by_cases h1 : c = '"'
    · subst h1
      simp [jsonEscape, jsonEscapeChar, parseJsonStr, parseJsonEsc, ih2]
    · by_cases h2 : c = '\\'
      · subst h2
        simp [jsonEscape, jsonEscapeChar, parseJsonStr, parseJsonEsc, ih2]
      · simp [jsonEscape, jsonEscapeChar, parseJsonStr, h1, h2, ih2]

theorem joinWith_length_ge (sep : Str) (l : List Str) (h : ∀ b ∈ l, b ≠ []) :
    l.length ≤ (joinWith sep l).length := by
  induction l with
  | nil => simp [joinWith]
  | cons x xs ih =>
    cases xs with
    | nil =>
      rw [joinWith]
      have : x ≠ [] := h x (List.mem_cons_self x [])
      have := List.length_pos.mpr this
      simpa using this
    | cons y ys =>
      rw [joinWith]
      have hx : x ≠ [] := h x (List.mem_cons_self x (y :: ys))
      have hx1 : 1 ≤ x.length := List.length_pos.mpr hx
      have hrest := ih (fun b hb => h b (List.mem_cons_of_mem x hb))
      simp only [List.length_append, List.length_cons] at hrest ⊢
      omega

theorem dropPref_nil (s : Str) : dropPref [] s = some s := rfl

theorem dropPref_refl (p : Str) : dropPref p p = some [] := by
  have h := dropPref_self p []
  rwa [List.append_nil] at h

theorem dropPref_cons_self (c : Char) (p s : Str) :
    dropPref (c :: p) (c :: s) = dropPref p s := by
  simp [dropPref]

theorem dropPref_mismatch2 (a : Char) (p : Str) (b : Char) (s : Str) (hab : a ≠ b) :
    dropPref ('\n' :: a :: p) ('\n' :: b :: s) = none := by
  simp [dropPref, hab]

theorem joinWith_single (sep : Str) (a : Str) : joinWith sep [a] = a := rfl

theorem joinWith_cons2 (sep : Str) (a b : Str) (l : List Str) :
    joinWith sep (a :: b :: l) = a ++ sep ++ joinWith sep (b :: l) := rfl

theorem parseJsonItems_render (items : List Str) : ∀ fuel : Nat, items ≠ [] →
    items.length ≤ fuel →
    parseJsonItems fuel
      (joinWith (',' :: '\n' :: []) (items.map jsonItem) ++ ('\n' :: ']' :: [])) =
      some items := by
  induction items with
  | nil => intro fuel h; exact absurd rfl h
  | cons x xs ih =>
    intro fuel _ hfuel
    obtain ⟨f, rfl⟩ : ∃ f, fuel = f + 1 := by
      cases fuel with
      | zero => simp at hfuel
      | succ f => exact ⟨f, rfl⟩
    cases xs with
    | nil =>
      rw [List.map_cons, List.map_nil, joinWith_single, parseJsonItems, jsonItem]
      simp only [List.append_assoc, List.singleton_append, List.cons_append, List.nil_append]
      rw [dropPref_cons_self, dropPref_cons_self, dropPref_cons_self, dropPref_cons_self,
        dropPref_cons_self, dropPref_nil, Option.some_bind, parseJsonStr_escape,
        Option.some_bind]
      simp
    | cons y ys =>
      have hys : (y :: ys).length ≤ f := by
        simp only [List.length_cons] at hfuel ⊢
        omega
      have hih := ih f (by simp) hys
      rw [List.map_cons] at hih
      rw [List.map_cons, List.map_cons, joinWith_cons2, parseJsonItems, jsonItem]
      simp only [List.append_assoc, List.singleton_append, List.cons_append, List.nil_append]
      rw [dropPref_cons_self, dropPref_cons_self, dropPref_cons_self, dropPref_cons_self,
        dropPref_cons_self, dropPref_nil, Option.some_bind, parseJsonStr_escape,
        Option.some_bind]
      rw [if_neg (by simp), dropPref_cons_self, dropPref_cons_self, dropPref_nil,
        Option.some_bind, hih]
      rfl

theorem parse_json_round (items : List Str) (hne : items ≠ []) :
    parse_json (export_json items) = some items := by
  rw [export_json, if_neg hne, parse_json, dropPref_cons_self, dropPref_cons_self,
    dropPref_nil, Option.elim_some]
  apply parseJsonItems_render items _ hne
  have h1 : (items.map jsonItem).length ≤
      (joinWith (',' :: '\n' :: []) (items.map jsonItem)).length := by
    apply joinWith_length_ge
    intro b hb
    rcases List.mem_map.mp hb with ⟨z, _, rfl⟩
    simp [jsonItem]
  rw [List.length_map] at h1
  simp only [List.length_append]
  omega

theorem parseXmlText_escape (x : Str) : ∀ r : Str,
    parseXmlText (xmlEscape x ++ '<' :: r) = some (x, '<' :: r) := by
  induction x with
  | nil => intro r; simp [xmlEscape, parseXmlText]
  | cons c cs ih =>
    intro r
    have ih2 : parseXmlText ((cs.map xmlEscapeChar).flatten ++ '<' :: r) = some (cs, '<' :: r) := by
      have h := ih r
      rwa [xmlEscape] at h
    by_cases h1 : c = '&'
    · subst h1
      simp [xmlEscape, xmlEscapeChar, parseXmlText, parseXmlEnt, ih2]
    · by_cases h2 : c = '<'
      · subst h2
        simp [xmlEscape, xmlEscapeChar, parseXmlText, parseXmlEnt, ih2]
      · by_cases h3 : c = '>'
        · subst h3
          simp [xmlEscape, xmlEscapeChar, parseXmlText, parseXmlEnt, ih2]
        · simp [xmlEscape, xmlEscapeChar, parseXmlText, h1, h2, h3, ih2]

theorem flatten_length_ge (l : List Str) (h : ∀ b ∈ l, b ≠ []) :
    l.length ≤ l.flatten.length := by
  induction l with
  | nil => simp
  | cons x xs ih =>
    have hx : 1 ≤ x.length := List.length_pos.mpr (h x (List.mem_cons_self x xs))
    have := ih (fun b hb => h b (List.mem_cons_of_mem x hb))
    simp only [List.flatten_cons, List.length_append, List.length_cons]
    omega

theorem parseXmlItems_render (root child : Str) (items : List Str) : ∀ fuel : Nat,
    (∀ x ∈ items, x ≠ []) → items.length < fuel →
    parseXmlItems root child fuel
      ((items.map (fun x => ('\n' :: ' ' :: ' ' :: []) ++ xmlChild child x)).flatten ++
        (('\n' :: '<' :: '/' :: root) ++ ('>' :: []))) = some items := by
  induction items with
  | nil =>
    intro fuel _ hfuel
    obtain ⟨f, rfl⟩ : ∃ f, fuel = f + 1 := by
      cases fuel with
      | zero => simp at hfuel
      | succ f => exact ⟨f, rfl⟩
    rw [List.map_nil, List.flatten_nil, List.nil_append, parseXmlItems]
    simp only [List.cons_append]
    rw [dropPref_refl, Option.elim_some, if_pos rfl]
  | cons x xs ih =>
    intro fuel hne hfuel
    obtain ⟨f, rfl⟩ : ∃ f, fuel = f + 1 := by
      cases fuel with
      | zero => simp at hfuel
      | succ f => exact ⟨f, rfl⟩
    have hx : x ≠ [] := hne x (List.mem_cons_self x xs)
    have hih := ih f (fun z hz => hne z (List.mem_cons_of_mem x hz))
      (by simp only [List.length_cons] at hfuel ⊢; omega)
    simp only [List.append_assoc, List.cons_append, List.nil_append] at hih
    rw [List.map_cons, List.flatten_cons, parseXmlItems, xmlChild, if_neg hx]
    simp only [List.append_assoc, List.cons_append, List.nil_append, List.singleton_append]
    rw [dropPref_mismatch2 '<' _ ' ' _ (by decide), Option.elim_none]
    rw [dropPref_cons_self, dropPref_cons_self, dropPref_cons_self, dropPref_cons_self,
      dropPref_append_left, dropPref_cons_self, dropPref_nil, Option.some_bind]
    rw [parseXmlText_escape, Option.some_bind]
    rw [dropPref_cons_self, dropPref_cons_self, dropPref_append_left, dropPref_cons_self,
      dropPref_nil, Option.some_bind, hih]
    rfl

theorem parse_xml_round (root child : Str) (items : List Str) (hne : items ≠ [])
    (hx : ∀ x ∈ items, x ≠ []) :
    parse_xml root child (export_xml root child items) = some items := by
  rw [export_xml, if_neg hne, parse_xml, dropPref_self, Option.some_bind]
  simp only [List.append_assoc]
  rw [dropPref_append_left, dropPref_self, Option.elim_some]
  apply parseXmlItems_render root child items _ hx
  have h1 : (items.map (fun x => ('\n' :: ' ' :: ' ' :: []) ++ xmlChild child x)).length ≤
      (items.map (fun x => ('\n' :: ' ' :: ' ' :: []) ++ xmlChild child x)).flatten.length := by
    apply flatten_length_ge
    intro b hb
    rcases List.mem_map.mp hb with ⟨z, _, rfl⟩
    simp
  rw [List.length_map] at h1
  simp only [List.length_append, List.length_cons]
  omega

/-- C6 (counterexample): an item containing a newline breaks the plain-text
round trip - the writer joins with newlines and performs no escaping, so the
single item splits back into two. -/
theorem round_trip_counterexample :
    parse_plain (export_plain [('a' :: '\n' :: 'b' :: [])]) ≠
      [('a' :: '\n' :: 'b' :: [])] := by
  decide

/-- C6 (amended): for every non-empty sequence of unique, non-empty strings of
printable-ASCII characters (in particular containing no newlines), exporting
with each of the three writers and parsing the produced content back with the
corresponding standard parser returns the same sequence in the same order; an
item containing a newline (plain) or an empty item (XML short form) breaks
the round trip, and outside printable ASCII the writers escape differently
than modelled. -/
theorem export_round_trip (items : List Str) (root child : Str)
    (hne : items ≠ []) (hnd : items.Nodup)
    (hitems : ∀ x ∈ items, x ≠ [] ∧ printableAscii x) :
    parse_plain (export_plain items) = items ∧
    parse_json (export_json items) = some items ∧
    parse_xml root child (export_xml root child items) = some items := by
  refine ⟨?_, parse_json_round items hne,
    parse_xml_round root child items hne (fun x hxm => (hitems x hxm).1)⟩
  apply parse_plain_round items hne
  intro x hxm hmem
  have hch := (hitems x hxm).2 '\n' hmem
  exact absurd hch.1 (by decide)

/-- Witness for `export_round_trip` on the spec's own example items. -/
theorem export_round_trip_witness :
    parse_plain (export_plain ["Item 1".toList, "Item 2".toList]) =
      ["Item 1".toList, "Item 2".toList] ∧
    parse_json (export_json ["Item 1".toList, "Item 2".toList]) =
      some ["Item 1".toList, "Item 2".toList] ∧
    parse_xml "Items".toList "Item".toList
        (export_xml "Items".toList "Item".toList ["Item 1".toList, "Item 2".toList]) =
      some ["Item 1".toList, "Item 2".toList] :=
  export_round_trip ["Item 1".toList, "Item 2".toList] "Items".toList "Item".toList
    (by decide) (by decide) (by decide)

/-! ### C7: the load pipeline -/

theorem mem_dedupFirstAux (l : List String) : ∀ (seen : List String) (x : String),
    x ∈ dedupFirstAux seen l ↔ x ∈ l ∧ x ∉ seen := by
  induction l with
  | nil => intro seen x; simp [dedupFirstAux]
  | cons a tl ih =>
    intro seen x
    by_cases ha : a ∈ seen
    · rw [dedupFirstAux, if_pos ha, ih]
      simp only [List.mem_cons]
      constructor
      · rintro ⟨h1, h2⟩
        exact ⟨Or.inr h1, h2⟩
      · rintro ⟨h1 | h1, h2⟩
        · subst h1; exact absurd ha h2
        · exact ⟨h1, h2⟩
    · rw [dedupFirstAux, if_neg ha]
      simp only [List.mem_cons, ih]
      constructor
      · rintro (rfl | ⟨h1, h2⟩)
        · exact ⟨Or.inl rfl, ha⟩
        · push_neg at h2
          exact ⟨Or.inr h1, h2.2⟩
      · rintro ⟨rfl | h1, h2⟩
        · exact Or.inl rfl
        · by_cases hxa : x = a
          · exact Or.inl hxa
          · refine Or.inr ⟨h1, ?_⟩
            push_neg
            exact ⟨hxa, h2⟩

theorem nodup_dedupFirstAux (l : List String) : ∀ seen : List String,
    (dedupFirstAux seen l).Nodup := by
  induction l with
  | nil => intro seen; simp [dedupFirstAux]
  | cons a tl ih =>
    intro seen
    by_cases ha : a ∈ seen
    · rw [dedupFirstAux, if_pos ha]
      exact ih seen
    · rw [dedupFirstAux, if_neg ha]
      refine List.nodup_cons.mpr ⟨?_, ih _⟩
      intro hmem
      exact ((mem_dedupFirstAux tl (a :: seen) a).mp hmem).2 (List.mem_cons_self a seen)

theorem mem_dedupFirst (l : List String) (x : String) : x ∈ dedupFirst l ↔ x ∈ l := by
  rw [dedupFirst, mem_dedupFirstAux]
  simp

theorem nodup_dedupFirst (l : List String) : (dedupFirst l).Nodup :=
  nodup_dedupFirstAux l []

/-- C7 (counterexample): the claim says each line is trimmed of whitespace,
but the code strips only spaces and newlines (`strip(' \n')`), so a
tab-indented item is installed with its tab; the claim-side pipeline (an
otherwise identical definition that trims all whitespace) disagrees with the
code on such content. -/
theorem load_trims_counterexample :
    load_shuffle_list "\tfoo" ≠ load_shuffle_list_spec "\tfoo" ∧
    (load_shuffle_list "\tfoo").1 = ["\tfoo"] ∧
    (load_shuffle_list_spec "\tfoo").1 = ["foo"] := by
  refine ⟨by decide, by decide, by decide⟩

/-- C7 (amended): loading splits the content into lines, strips spaces and
newlines (not all whitespace: tabs survive at line ends) from each, discards
the lines that are entirely whitespace, de-duplicates the rest, installs the
result as the working list and displays the count message over the number of
installed items: the installed list is duplicate-free, its members are
exactly the non-blank stripped lines, each member arises from a line of the
content, and the message reports the installed length. -/
theorem load_pipeline (content : String) :
    (load_shuffle_list content).1.Nodup ∧
    (∀ x : String, x ∈ (load_shuffle_list content).1 ↔ x ∈ nonBlankLines content) ∧
    (∀ x : String, x ∈ (load_shuffle_list content).1 →
      ∃ l ∈ splitOnChar '\n' content.toList,
        x.toList = stripBoth spaceOrNewline l ∧
          ¬((stripBoth spaceOrNewline l).all pyWhitespace = true)) ∧
    (load_shuffle_list content).2 =
      toString (load_shuffle_list content).1.length ++ " items loaded. Ready to start." := by
  refine ⟨nodup_dedupFirst _, fun x => mem_dedupFirst _ x, ?_, rfl⟩
  intro x hx
  have hx2 : x ∈ nonBlankLines content := (mem_dedupFirst _ x).mp hx
  rcases List.mem_map.mp hx2 with ⟨l, hl, rfl⟩
  rcases List.mem_filter.mp hl with ⟨hl1, hl2⟩
  rcases List.mem_map.mp hl1 with ⟨raw, hraw, rfl⟩
  refine ⟨raw, hraw, rfl, ?_⟩
  simpa using hl2

/-- Witness for `load_pipeline` at a concrete file content with blanks,
indentation and a duplicate. -/
theorem load_pipeline_witness :
    ("foo" ∈ (load_shuffle_list "  foo\n\nbar\nfoo").1) ∧
    (load_shuffle_list "  foo\n\nbar\nfoo").1.Nodup :=
  ⟨((load_pipeline "  foo\n\nbar\nfoo").2.1 "foo").mpr (by decide),
   (load_pipeline "  foo\n\nbar\nfoo").1⟩

/-! ### C1: what the flash loop displays -/

theorem curSeq_bounds (n : Nat) (hn : 1 ≤ n) (t : Nat) :
    -1 ≤ curSeq n t ∧ curSeq n t ≤ (n : Int) - 1 := by
  induction t with
  | zero =>
    constructor
    · norm_num [curSeq]
    · rw [curSeq]; omega
  | succ t ih =>
    rw [curSeq, cursorStep]
    by_cases h : curSeq n t < (n : Int) - 1
    · rw [if_pos h]; omega
    · rw [if_neg h]; omega

theorem pyGet_ofNat (l : List String) (t : Nat) (h : t < l.length) :
    pyGet l (t : Int) = some (l.get ⟨t, h⟩) := by
  rw [pyGet, if_pos (by omega)]
  simp only [Int.toNat_natCast]
  rw [List.get?_eq_getElem?]
  exact List.getElem?_eq_getElem h

theorem pyGet_neg_one (l : List String) (hl : l ≠ []) :
    pyGet l (-1) = some (l.getLast hl) := by
  have hn : 1 ≤ l.length := List.length_pos.mpr hl
  have h9 : ((-(-1 : Int)).toNat) = 1 := rfl
  rw [pyGet, if_neg (by omega), h9, if_pos hn, List.get?_eq_getElem?,
    List.getLast_eq_getElem]
  exact List.getElem?_eq_getElem (by omega)

theorem pyGet_isSome (l : List String) (hl : l ≠ []) (i : Int)
    (h1 : -1 ≤ i) (h2 : i ≤ (l.length : Int) - 1) : ∃ v, pyGet l i = some v := by
  by_cases h0 : 0 ≤ i
  · have hlt : i.toNat < l.length := by omega
    refine ⟨l.get ⟨i.toNat, hlt⟩, ?_⟩
    have hcast := pyGet_ofNat l i.toNat hlt
    rwa [Int.toNat_of_nonneg h0] at hcast
  · have : i = -1 := by omega
    subst this
    exact ⟨l.getLast hl, pyGet_neg_one l hl⟩

theorem flashTick_run (s : AppState) (i : Int) (hr : s.running = true) (v : String)
    (hv : pyGet s.shuffleList i = some v) :
    flashTick s i = ({ s with value := v }, cursorStep s.shuffleList.length i, true) := by
  rw [flashTick, if_pos hr, hv, hr]

theorem flashIter_run (s : AppState) (hr : s.running = true) (hl : s.shuffleList ≠ [])
    (t : Nat) :
    (flashIter s 0 t).1.shuffleList = s.shuffleList ∧
    (flashIter s 0 t).1.running = true ∧
    (flashIter s 0 t).2 = curSeq s.shuffleList.length t := by
  have hn : 1 ≤ s.shuffleList.length := List.length_pos.mpr hl
  induction t with
  | zero => exact ⟨rfl, hr, rfl⟩
  | succ t ih =>
    obtain ⟨h1, h2, h3⟩ := ih
    obtain ⟨hb1, hb2⟩ := curSeq_bounds s.shuffleList.length hn t
    obtain ⟨v, hv⟩ := pyGet_isSome s.shuffleList hl _ hb1 hb2
    have hv2 : pyGet (flashIter s 0 t).1.shuffleList (flashIter s 0 t).2 = some v := by
      rw [h1, h3]; exact hv
    have htick := flashTick_run (flashIter s 0 t).1 (flashIter s 0 t).2 h2 v hv2
    rw [flashIter, htick]
    refine ⟨h1, h2, ?_⟩
    rw [h1, h3]
    rfl

theorem flashDisplay_spec (s : AppState) (hr : s.running = true) (hl : s.shuffleList ≠ [])
    (t : Nat) :
    pyGet s.shuffleList (curSeq s.shuffleList.length t) = some (flashDisplay s t) := by
  have hn : 1 ≤ s.shuffleList.length := List.length_pos.mpr hl
  obtain ⟨h1, h2, h3⟩ := flashIter_run s hr hl t
  obtain ⟨hb1, hb2⟩ := curSeq_bounds s.shuffleList.length hn t
  obtain ⟨v, hv⟩ := pyGet_isSome s.shuffleList hl _ hb1 hb2
  have hv2 : pyGet (flashIter s 0 t).1.shuffleList (flashIter s 0 t).2 = some v := by
    rw [h1, h3]; exact hv
  have htick := flashTick_run (flashIter s 0 t).1 (flashIter s 0 t).2 h2 v hv2
  rw [hv, flashDisplay, flashIter, htick]

theorem curSeq_of_lt (n : Nat) : ∀ t : Nat, t + 1 ≤ n → curSeq n t = (t : Int) := by
  intro t
  induction t with
  | zero => intro h; rfl
  | succ t ih =>
    intro h
    rw [curSeq, ih (by omega), cursorStep, if_pos (by omega)]
    omega

theorem curSeq_length (n : Nat) (hn : 1 ≤ n) : curSeq n n = -1 := by
  obtain ⟨m, rfl⟩ : ∃ m, n = m + 1 := ⟨n - 1, by omega⟩
  rw [curSeq, curSeq_of_lt (m + 1) m (by omega), cursorStep, if_neg (by omega)]
  omega

theorem curSeq_length_succ (n : Nat) (hn : 1 ≤ n) : curSeq n (n + 1) = 0 := by
  rw [curSeq, curSeq_length n hn, cursorStep, if_pos (by omega)]
  norm_num

theorem curSeq_period (n : Nat) (hn : 1 ≤ n) : ∀ t : Nat,
    curSeq n (t + (n + 1)) = curSeq n t := by
  intro t
  induction t with
  | zero => rw [Nat.zero_add]; exact curSeq_length_succ n hn
  | succ t ih =>
    have hre : t + 1 + (n + 1) = (t + (n + 1)) + 1 := by omega
    rw [hre, curSeq, ih]
    rfl

/-- C1 (counterexample): on the two-element working list the displays go
first, second, second, first, ... - the second element is shown twice in a
row at the wrap (the negative wrap index `-len` lands on `-1`, which Python
reads as the last element again), so the loop does not display every element
exactly once before an element repeats. -/
theorem flash_visits_once_counterexample :
    ¬ flashVisitsAllOnce (AppState.mk ["a", "b"] [] "init" true "Stop") := by
  intro h
  exact absurd (h 1) (by decide)

/-- C1 (amended): started on a non-empty working list, the flash loop
displays the elements at indices 0 .. n-1 in order, then displays the last
element a second time (the wrap lands on Python index -1), and then repeats
this same cycle forever with period n + 1; so every element is displayed in
every cycle, with the last element shown twice in succession rather than
exactly once. -/
theorem flash_loop_cycle (s : AppState) (hr : s.running = true) (hl : s.shuffleList ≠ []) :
    (∀ t : Nat, ∀ h : t < s.shuffleList.length, flashDisplay s t = s.shuffleList.get ⟨t, h⟩) ∧
    flashDisplay s s.shuffleList.length = s.shuffleList.getLast hl ∧
    (∀ t : Nat, flashDisplay s (t + (s.shuffleList.length + 1)) = flashDisplay s t) := by
  have hn : 1 ≤ s.shuffleList.length := List.length_pos.mpr hl
  refine ⟨?_, ?_, ?_⟩
  · intro t h
    have hd := flashDisplay_spec s hr hl t
    rw [curSeq_of_lt _ t (by omega), pyGet_ofNat s.shuffleList t h] at hd
    exact (Option.some_inj.mp hd).symm
  · have hd := flashDisplay_spec s hr hl s.shuffleList.length
    rw [curSeq_length _ hn, pyGet_neg_one s.shuffleList hl] at hd
    exact (Option.some_inj.mp hd).symm
  · intro t
    have hd1 := flashDisplay_spec s hr hl (t + (s.shuffleList.length + 1))
    rw [curSeq_period _ hn t] at hd1
    have hd2 := flashDisplay_spec s hr hl t
    rw [hd2] at hd1
    exact (Option.some_inj.mp hd1).symm

/-- Witness for `flash_loop_cycle` on a three-element list: displays index 0,
then (at tick 3) the last element again, and tick 5 repeats tick 1. -/
theorem flash_loop_cycle_witness :
    flashDisplay (AppState.mk ["a", "b", "c"] [] "init" true "Stop") 0 = "a" ∧
    flashDisplay (AppState.mk ["a", "b", "c"] [] "init" true "Stop") 3 = "c" ∧
    flashDisplay (AppState.mk ["a", "b", "c"] [] "init" true "Stop") (1 + 4) =
      flashDisplay (AppState.mk ["a", "b", "c"] [] "init" true "Stop") 1 :=
  ⟨(flash_loop_cycle (AppState.mk ["a", "b", "c"] [] "init" true "Stop") rfl
      (by decide)).1 0 (by decide),
   (flash_loop_cycle (AppState.mk ["a", "b", "c"] [] "init" true "Stop") rfl
      (by decide)).2.1,
   (flash_loop_cycle (AppState.mk ["a", "b", "c"] [] "init" true "Stop") rfl
      (by decide)).2.2 1⟩

/-! ### C3: what a pick removes and appends, and disjointness -/

theorem length_filter_ne_of_count_one (l : List String) (v : String)
    (h : l.count v = 1) : (l.filter (fun x => x ≠ v)).length + 1 = l.length := by
  induction l with
  | nil => simp at h
  | cons a tl ih =>
    rw [List.count_cons] at h
    by_cases hav : v = a
    · subst hav
      rw [if_pos (by simp)] at h
      have h0 : tl.count v = 0 := by omega
      have hnotmem : v ∉ tl := List.count_eq_zero.mp h0
      have hfe : tl.filter (fun x => x ≠ v) = tl :=
        List.filter_eq_self.mpr (fun x hx => by
          simp only [decide_eq_true_eq]
          exact fun he => hnotmem (he ▸ hx))
      rw [List.filter_cons, if_neg (by simp), hfe]
      simp
    · rw [if_neg (by simp only [beq_iff_eq]; exact fun he => hav he.symm), Nat.add_zero] at h
      rw [List.filter_cons,
        if_pos (by simp only [decide_eq_true_eq]; exact fun he => hav he.symm)]
      have := ih h
      simp only [List.length_cons]
      omega

theorem pick_item_disjoint (s : AppState) (h : s.shuffleList.Disjoint s.picked) :
    (pick_item s).shuffleList.Disjoint (pick_item s).picked := by
  by_cases hg : s.shuffleList ≠ [] ∧ s.running
  · obtain ⟨h1, h2⟩ := pick_item_fired s hg.1 hg.2
    rw [h1, h2]
    intro x hx hx2
    rcases List.mem_filter.mp hx with ⟨hxw, hxv⟩
    rcases List.mem_append.mp hx2 with hp | hv
    · exact h hxw hp
    · simp at hxv hv
      exact hxv hv
  · rw [pick_item_skipped s hg]
    exact h

theorem applyPicks_cons (s : AppState) (v : String) (vs : List String) :
    applyPicks s (v :: vs) = applyPicks (pickWith s v) vs := rfl

theorem applyPicks_disjoint (vs : List String) (s : AppState)
    (h : s.shuffleList.Disjoint s.picked) :
    (applyPicks s vs).shuffleList.Disjoint (applyPicks s vs).picked := by
  induction vs generalizing s with
  | nil => exact h
  | cons v vs ih =>
    rw [applyPicks_cons]
    exact ih (pickWith s v) (pick_item_disjoint { s with value := v } h)

/-- C3 (counterexample): the claim quantifies over every state, but a pick
fired on a non-empty working list while RUNNING removes nothing at all when
the displayed value is not on the working list (reachable: the display still
shows the load message until the first tick fires) - the picked list still
gains one entry, so the pick does not remove exactly one item. -/
theorem pick_exactly_one_counterexample :
    (AppState.mk ["a", "b"] [] "c" true "Stop").shuffleList ≠ [] ∧
    (AppState.mk ["a", "b"] [] "c" true "Stop").running = true ∧
    (pick_item (AppState.mk ["a", "b"] [] "c" true "Stop")).picked = ["c"] ∧
    (pick_item (AppState.mk ["a", "b"] [] "c" true "Stop")).shuffleList.length =
      (AppState.mk ["a", "b"] [] "c" true "Stop").shuffleList.length := by
  refine ⟨by decide, rfl, by decide, by decide⟩

/-- C3 (amended): a pick fired on a non-empty working list while RUNNING
removes exactly one item and appends exactly one item provided the displayed
value occurs exactly once on the working list (as it does whenever the
duplicate-free working list contains it); and starting from a working list
disjoint from the picked list, the two lists stay disjoint under every
sequence of picks, whatever values they pick. -/
theorem pick_transfer_semantics (s : AppState) (vs : List String) :
    (s.shuffleList.count s.value = 1 → s.shuffleList ≠ [] → s.running = true →
      (pick_item s).shuffleList.length + 1 = s.shuffleList.length ∧
      (pick_item s).picked = s.picked ++ [s.value]) ∧
    (s.shuffleList.Disjoint s.picked →
      (applyPicks s vs).shuffleList.Disjoint (applyPicks s vs).picked) := by
  constructor
  · intro hc hl hr
    obtain ⟨h1, h2⟩ := pick_item_fired s hl hr
    refine ⟨?_, h2⟩
    rw [h1]
    exact length_filter_ne_of_count_one _ _ hc
  · exact applyPicks_disjoint vs s

/-- Witness for `pick_transfer_semantics` at a concrete state and pick
sequence. -/
theorem pick_transfer_semantics_witness :
    ((pick_item (AppState.mk ["a", "b"] ["x"] "a" true "Stop")).shuffleList.length + 1 = 2 ∧
      (pick_item (AppState.mk ["a", "b"] ["x"] "a" true "Stop")).picked = ["x"] ++ ["a"]) ∧
    (applyPicks (AppState.mk ["a", "b"] ["x"] "a" true "Stop") ["b"]).shuffleList.Disjoint
      (applyPicks (AppState.mk ["a", "b"] ["x"] "a" true "Stop") ["b"]).picked :=
  ⟨(pick_transfer_semantics (AppState.mk ["a", "b"] ["x"] "a" true "Stop") ["b"]).1
      (by decide) (by decide) rfl,
   (pick_transfer_semantics (AppState.mk ["a", "b"] ["x"] "a" true "Stop") ["b"]).2
      (by intro x hx hy; simp at hx hy; rcases hx with rfl | rfl <;> simp_all)⟩

/-! ### C5: reset after a sequence of picks -/

theorem perm_cons_filter_ne (w : List String) (v : String) (hv : v ∈ w) (hnd : w.Nodup) :
    w.Perm (v :: w.filter (fun x => x ≠ v)) := by
  induction w with
  | nil => cases hv
  | cons a tl ih =>
    rcases List.nodup_cons.mp hnd with ⟨ha, htl⟩
    by_cases hav : a = v
    · subst hav
      have hfe : tl.filter (fun x => x ≠ a) = tl :=
        List.filter_eq_self.mpr (fun x hx => by
          simp only [decide_eq_true_eq]
          exact fun he => ha (he ▸ hx))
      rw [List.filter_cons, if_neg (by simp), hfe]
    · have hvtl : v ∈ tl := by
        rcases List.mem_cons.mp hv with he | h
        · exact absurd he.symm hav
        · exact h
      rw [List.filter_cons, if_pos (by simp only [decide_eq_true_eq]; exact hav)]
      exact ((ih hvtl htl).cons a).trans (List.Perm.swap v a _)

theorem applyPicks_invariant (vs : List String) (s : AppState)
    (hnd : s.shuffleList.Nodup) (hv : validPicks s vs = true) :
    (applyPicks s vs).shuffleList.Nodup ∧
    ((applyPicks s vs).shuffleList ++ (applyPicks s vs).picked).Perm
      (s.shuffleList ++ s.picked) := by
  induction vs generalizing s with
  | nil => exact ⟨hnd, List.Perm.refl _⟩
  | cons v vs ih =>
    rw [validPicks, Bool.and_eq_true] at hv
    obtain ⟨hcond, hrest⟩ := hv
    rw [applyPicks_cons]
    by_cases hg : ({ s with value := v } : AppState).shuffleList ≠ [] ∧
        ({ s with value := v } : AppState).running
    · have hvmem : v ∈ s.shuffleList := by
        rw [if_pos ⟨hg.2, hg.1⟩] at hcond
        simpa using hcond
      obtain ⟨h1, h2⟩ := pick_item_fired { s with value := v } hg.1 hg.2
      have hnd2 : (pickWith s v).shuffleList.Nodup := by
        rw [pickWith, h1]
        exact hnd.filter _
      obtain ⟨hn, hp⟩ := ih (pickWith s v) hnd2 hrest
      refine ⟨hn, hp.trans ?_⟩
      rw [pickWith, h1, h2]
      have hperm := perm_cons_filter_ne s.shuffleList v hvmem hnd
      have step1 :
          (s.shuffleList.filter (fun x => x ≠ v) ++ (s.picked ++ [v])).Perm
            (s.shuffleList.filter (fun x => x ≠ v) ++ ([v] ++ s.picked)) :=
        List.Perm.append_left _ List.perm_append_comm
      have step2 :
          ((s.shuffleList.filter (fun x => x ≠ v) ++ [v]) ++ s.picked).Perm
            (s.shuffleList ++ s.picked) :=
        (List.Perm.append_right s.picked List.perm_append_comm).trans
          (List.Perm.append_right s.picked hperm.symm)
      have step3 :
          (s.shuffleList.filter (fun x => x ≠ v) ++ ([v] ++ s.picked)).Perm
            (s.shuffleList ++ s.picked) := by
        rw [← List.append_assoc]
        exact step2
      exact step1.trans step3
    · have he : pickWith s v = { s with value := v } := pick_item_skipped _ hg
      rw [he] at hrest ⊢
      exact ih { s with value := v } hnd hrest

theorem reset_noop (s : AppState) (h : s.picked = []) : reset s = s := by
  unfold reset
  rw [if_neg (not_not_intro h)]

theorem reset_fields (s : AppState) (h : s.picked ≠ []) :
    (reset s).shuffleList = s.shuffleList ++ s.picked ∧ (reset s).picked = [] := by
  unfold reset
  rw [if_pos h]
  exact ⟨rfl, rfl⟩

/-- C5: starting from a duplicate-free working list and an empty picked list,
after any valid sequence of picks a reset leaves a working list that is a
permutation of (in particular: has the cardinality of) the original working
list - concretely the concatenation of the leftover items and the picked
items - and an empty picked list; and a reset with nothing picked is a
complete no-op. -/
theorem reset_restores (s : AppState) (vs : List String)
    (h0 : s.picked = []) (h1 : s.shuffleList.Nodup) (h2 : validPicks s vs = true) :
    ((reset (applyPicks s vs)).shuffleList.Perm s.shuffleList ∧
     (reset (applyPicks s vs)).shuffleList.length = s.shuffleList.length ∧
     (reset (applyPicks s vs)).picked = [] ∧
     (reset (applyPicks s vs)).shuffleList =
       (applyPicks s vs).shuffleList ++ (applyPicks s vs).picked) ∧
    (∀ s2 : AppState, s2.picked = [] → reset s2 = s2) := by
  obtain ⟨hnd, hperm⟩ := applyPicks_invariant vs s h1 h2
  rw [h0, List.append_nil] at hperm
  refine ⟨?_, fun s2 hs2 => reset_noop s2 hs2⟩
  by_cases hp : (applyPicks s vs).picked = []
  · rw [reset_noop _ hp]
    rw [hp, List.append_nil] at hperm
    exact ⟨hperm, hperm.length_eq, hp, by rw [hp, List.append_nil]⟩
  · obtain ⟨ha, hb⟩ := reset_fields _ hp
    rw [ha, hb]
    exact ⟨hperm, hperm.length_eq, rfl, rfl⟩

/-- Witness for `reset_restores`: three items, two picked, then reset. -/
theorem reset_restores_witness :
    (reset (applyPicks (AppState.mk ["a", "b", "c"] [] "q" true "Stop")
        ["b", "a"])).shuffleList.Perm ["a", "b", "c"] ∧
    (reset (applyPicks (AppState.mk ["a", "b", "c"] [] "q" true "Stop")
        ["b", "a"])).picked = [] :=
  ⟨((reset_restores (AppState.mk ["a", "b", "c"] [] "q" true "Stop") ["b", "a"]
      rfl (by decide) (by decide)).1).1,
   ((reset_restores (AppState.mk ["a", "b", "c"] [] "q" true "Stop") ["b", "a"]
      rfl (by decide) (by decide)).1).2.2.1⟩

/-! ### C8: `State.set` with plain and callable values -/

/-- C8: setting a key to a plain (non-callable) value stores it, so a
subsequent `get` of that key returns it; setting a key that is present to a
callable invokes the callable on the currently stored value and leaves the
stored value in place (the field is not replaced by the callable). -/
theorem state_set_semantics {V : Type} (st : PyState V) (k : String) (v cur : V) :
    (stateSet st k (SetArg.plain v) = .ok (⟨entriesSet st.items k v⟩, none) ∧
      stateGet ⟨entriesSet st.items k v⟩ k = some v) ∧
    (stateGet st k = some cur →
      stateSet st k SetArg.callable = .ok (st, some cur) ∧
      stateGet st k = some cur) := by
  refine ⟨⟨rfl, entriesGet_entriesSet st.items k v⟩, fun h => ⟨?_, h⟩⟩
  simp [stateSet, stateGet] at h ⊢
  rw [h]

/-- Witness for `state_set_semantics` on a one-entry state. -/
theorem state_set_semantics_witness :
    (stateSet (PyState.mk [("a", 1)]) "a" (SetArg.plain 2) =
        .ok (⟨entriesSet [("a", 1)] "a" 2⟩, none) ∧
      stateGet (PyState.mk (entriesSet [("a", (1 : Nat))] "a" 2)) "a" = some 2) ∧
    (stateSet (PyState.mk [("a", (1 : Nat))]) "a" SetArg.callable =
        .ok (PyState.mk [("a", 1)], some 1) ∧
      stateGet (PyState.mk [("a", (1 : Nat))]) "a" = some 1) :=
  ⟨(state_set_semantics (PyState.mk [("a", 1)]) "a" 2 1).1,
   (state_set_semantics (PyState.mk [("a", 1)]) "a" 2 1).2 (by decide)⟩

/-! ### C10: the callable branch of `State.set` -/

/-- C10: a callable `set` on a present key leaves the entry list untouched
(the state afterwards is the very same value, so the callable's return value
is never stored), and a callable `set` on an absent key raises `KeyError`
(the error result) instead of inserting anything. -/
theorem state_set_callable_frame {V : Type} (st : PyState V) (k : String) :
    (∀ cur : V, stateGet st k = some cur →
      stateSet st k SetArg.callable = .ok (st, some cur)) ∧
    (stateGet st k = none → stateSet st k SetArg.callable = .error ()) := by
  constructor
  · intro cur h
    simp [stateSet, stateGet] at h ⊢
    rw [h]
  · intro h
    simp [stateSet, stateGet] at h ⊢
    rw [h]

/-- Witness for `state_set_callable_frame`: the present-key case keeps the
state intact, the absent-key case errors. -/
theorem state_set_callable_frame_witness :
    stateSet (PyState.mk [("a", (1 : Nat))]) "a" SetArg.callable =
      .ok (PyState.mk [("a", 1)], some 1) ∧
    stateSet (PyState.mk [("a", (1 : Nat))]) "b" SetArg.callable = .error () :=
  ⟨(state_set_callable_frame (PyState.mk [("a", 1)]) "a").1 1 (by decide),
   (state_set_callable_frame (PyState.mk [("a", 1)]) "b").2 (by decide)⟩

end Shuffler
